import Mathlib

/-!
Verification of the Ethereal IR block construction subsystem
(`src/evmla/ethereal_ir/function/block/mod.rs`): a shallow embedding of
the `Block` type, `Block::try_from_instructions`, `Block::insert_predecessor`,
the `WriteLLVM::into_llvm` emission fold and the `Display` rendering,
together with theorems about block partitioning, terminator placement,
predecessor idempotence, emission error propagation and display determinism.
-/

namespace EtherealIR

/-- The instruction opcode names (`InstructionName`), restricted to the
constructors the block-construction algorithm distinguishes: the tag marker,
the five unconditional terminators, and a representative sample of the
remaining "ordinary" opcodes, which `try_from_instructions` treats uniformly. -/
inductive InstructionName where
  | Tag
  | RETURN
  | REVERT
  | STOP
  | INVALID
  | JUMP
  | JUMPI
  | PUSH
  | ADD
  | SUB
  | MUL
  | POP
  | DUP1
  | SWAP1
  | MLOAD
  | MSTORE
  | SLOAD
  | SSTORE
  deriving DecidableEq, Repr

/-- One instruction of the input stream: an opcode name plus an optional
textual operand (`Instruction { name, value }`). -/
structure Instruction where
  name : InstructionName
  value : Option String
  deriving DecidableEq, Repr

/-- The Solidity compiler version (`semver::Version`), threaded through
construction; the block algorithm only stores and copies it. -/
structure SolcVersion where
  major : Nat
  minor : Nat
  patch : Nat
  deriving DecidableEq, Repr

/-- The code region kind (`compiler_llvm_context::CodeType`): deploy code
versus runtime code. -/
inductive CodeType where
  | deploy
  | runtime
  deriving DecidableEq, Repr

/-- The block identity key (`compiler_llvm_context::FunctionBlockKey`): a code
region kind paired with a numeric tag (`BigUint` modelled as `Nat`). -/
structure FunctionBlockKey where
  code_type : CodeType
  tag : Nat
  deriving DecidableEq, Repr

/-- `FunctionBlockKey::new(code_type, tag)`. -/
def FunctionBlockKey.new (code_type : CodeType) (tag : Nat) : FunctionBlockKey :=
  { code_type := code_type, tag := tag }

/-- One abstract slot of the simulated operand stack. Modelled from the spec:
the element-stack module is not among the given sources; §3 of the spec makes
each slot a literal constant, a duplicate-of-slot-N marker, or an opaque value. -/
inductive StackElement where
  | constant (value : String)
  | duplicate (index : Nat)
  | unknown
  deriving DecidableEq, Repr

/-- The simulated operand stack (`ElementStack`). Modelled from the spec: the
stack module is not among the given sources; §3 gives its lifecycle as
"created empty", an ordered sequence of slots. -/
def ElementStack : Type := List StackElement

instance : DecidableEq ElementStack := by
  unfold ElementStack
  infer_instance

/-- `ElementStack::new()`: the empty stack. Modelled from the spec (§3:
"Lifecycle: created empty"). -/
def ElementStack.new : ElementStack := []

/-- One block element (`Element`): an instruction wrapped together with the
active compiler version. Modelled from the spec for the fields (the element
module is not among the given sources; §3: "wraps one Instruction plus the
active language-version context"); the constructor call shape
`Element::new(solc_version, instruction)` is taken from the block source. -/
structure Element where
  solc_version : SolcVersion
  instruction : Instruction
  deriving DecidableEq, Repr

/-- `Element::new(solc_version, instruction)`. -/
def Element.new (solc_version : SolcVersion) (instruction : Instruction) : Element :=
  { solc_version := solc_version, instruction := instruction }

/-- An MD5 digest (`md5::Digest`), an opaque 16-byte value; the block code
only stores a vector of them, initially empty. -/
structure MD5Digest where
  bytes : List Nat
  deriving DecidableEq, Repr

/-- The Ethereal IR block (`Block`). The predecessor `HashSet` is embedded as
a duplicate-free list: `insert` adds an element only when it is absent, and
iteration order is the table's in-memory order, which carries no sortedness
guarantee with respect to the element values. -/
structure Block where
  solc_version : SolcVersion
  key : FunctionBlockKey
  «instance» : Option Nat
  elements : List Element
  predecessors : List (FunctionBlockKey × Nat)
  initial_stack : ElementStack
  stack : ElementStack
  extra_hashes : List MD5Digest
  deriving DecidableEq

/-- Whether an opcode is one of the five unconditional terminators on which
the construction loop stops after appending
(`RETURN | REVERT | STOP | INVALID | JUMP`). -/
def InstructionName.isTerminator : InstructionName → Bool
  | .RETURN => true
  | .REVERT => true
  | .STOP => true
  | .INVALID => true
  | .JUMP => true
  | _ => false

/-- `str::parse::<num::BigUint>()` on the tag operand, i.e. num-bigint's
`from_str_radix` at radix 10: at most one leading `+` sign is stripped (a
second `+` is not a digit and fails below, matching the library's
keep-both-pluses behaviour); the remainder must be non-empty and lead with a
real decimal digit (a leading underscore is rejected); every later character
must be a decimal digit or an underscore, with underscores skipped when the
digits are accumulated; any other character (letters map to digit values of
at least 10, beyond radix 10) fails. -/
def parseBigUint (s : String) : Option Nat :=
  let chars :=
    match s.data with
    | '+' :: rest => rest
    | cs => cs
  match chars with
  | [] => none
  | c :: _ =>
    if c.isDigit && chars.all (fun ch => ch.isDigit || ch == '_') then
      some ((chars.filter (fun ch => ch != '_')).foldl
        (fun acc ch => acc * 10 + (ch.toNat - 48)) 0)
    else none

/-- The body of the `while cursor < slice.len()` loop of
`try_from_instructions`, run on the instructions after the optional leading
tag: each instruction is wrapped as an `Element` and pushed, then the loop
breaks after incrementing the cursor on a terminator, breaks without
incrementing the cursor on a tag marker, and otherwise increments the cursor
and continues. Returns the pushed elements and the number of loop-consumed
instructions. -/
def buildElements (solc_version : SolcVersion) : List Instruction → List Element × Nat
  | [] => ([], 0)
  | instruction :: rest =>
    let element := Element.new solc_version instruction
    match instruction.name with
    | .RETURN | .REVERT | .STOP | .INVALID | .JUMP => ([element], 1)
    | .Tag => ([element], 0)
    | _ =>
      (element :: (buildElements solc_version rest).1,
       (buildElements solc_version rest).2 + 1)

/-- `Block::try_from_instructions(solc_version, code_type, slice)`.
Indexing an empty slice panics, and a leading tag marker whose operand is
absent (`expect("Always exists")`) or fails to parse
(`expect("Always valid")`) panics; panics are embedded as `none`. Otherwise
the leading tag (or zero) becomes the key tag, the loop builds the element
list, and the block plus the consumed-instruction count is returned. -/
def Block.try_from_instructions (solc_version : SolcVersion) (code_type : CodeType)
    (slice : List Instruction) : Option (Block × Nat) :=
  match slice with
  | [] => none
  | first :: rest =>
    let headTag : Option (Nat × Nat × List Instruction) :=
      match first.name with
      | .Tag =>
        match first.value with
        | none => none
        | some operand =>
          match parseBigUint operand with
          | none => none
          | some tag => some (tag, 1, rest)
      | _ => some (0, 0, first :: rest)
    match headTag with
    | none => none
    | some (tag, cursor, remaining) =>
      let looped := buildElements solc_version remaining
      some
        ({ solc_version := solc_version
           key := FunctionBlockKey.new code_type tag
           «instance» := none
           elements := looped.1
           predecessors := []
           initial_stack := ElementStack.new
           stack := ElementStack.new
           extra_hashes := [] },
         cursor + looped.2)

/-- `HashSet::insert` on the predecessor set: a no-op when the pair is already
present, otherwise the pair is added to the table. -/
def insertPair (l : List (FunctionBlockKey × Nat)) (p : FunctionBlockKey × Nat) :
    List (FunctionBlockKey × Nat) :=
  if p ∈ l then l else l ++ [p]

/-- `Block::insert_predecessor(key, instance)`: inserts the pair into the
predecessor set. -/
def Block.insert_predecessor (b : Block) (key : FunctionBlockKey) (inst : Nat) : Block :=
  { b with predecessors := insertPair b.predecessors (key, inst) }

/-- The caller's iterative whole-stream partitioning: repeatedly call
`try_from_instructions` on the remaining slice and advance by the returned
consumed count until the stream is exhausted, collecting every
(block, consumed count) pair. The fuel argument only bounds the recursion;
`buildAll` supplies the stream length, which suffices because every
successful call consumes at least one instruction. -/
def buildAllFuel (solc_version : SolcVersion) (code_type : CodeType) :
    Nat → List Instruction → Option (List (Block × Nat))
  | _, [] => some []
  | 0, _ :: _ => none
  | fuel + 1, first :: rest =>
    match Block.try_from_instructions solc_version code_type (first :: rest) with
    | none => none
    | some (b, n) =>
      match buildAllFuel solc_version code_type fuel ((first :: rest).drop n) with
      | none => none
      | some tail => some ((b, n) :: tail)

/-- Iterated block construction over a whole instruction stream. -/
def buildAll (solc_version : SolcVersion) (code_type : CodeType)
    (slice : List Instruction) : Option (List (Block × Nat)) :=
  buildAllFuel solc_version code_type slice.length slice

/-- Splits a stream into consecutive chunks of the given sizes; used to state
that the consumed counts returned by iterated construction partition the
stream. -/
def splitByCounts {α : Type} : List α → List Nat → List (List α)
  | _, [] => []
  | s, n :: ns => s.take n :: splitByCounts (s.drop n) ns

/-- `emitElements emit elements state`: the `for element in self.elements`
loop of `into_llvm`, emitting each element in order against the
code-generation context state; the `?` operator returns the first element's
error unchanged and skips the remaining elements. The per-element emission
`Element::into_llvm` lives in the external code-generation context and is a
parameter. -/
def emitElements {σ ε : Type} (emit : Element → σ → Except ε σ) :
    List Element → σ → Except ε σ
  | [], s => Except.ok s
  | e :: es, s =>
    match emit e s with
    | Except.error err => Except.error err
    | Except.ok s2 => emitElements emit es s2

/-- `<Block as WriteLLVM>::into_llvm(context)`: first
`context.set_code_type(self.key.code_type)`, then emit every element in
order. The external context is abstracted as a state `σ` with its
`set_code_type` operation and fallible per-element emission. -/
def Block.into_llvm {σ ε : Type} (set_code_type : CodeType → σ → σ)
    (emit : Element → σ → Except ε σ) (b : Block) (s : σ) : Except ε σ :=
  emitElements emit b.elements (set_code_type b.key.code_type s)

/-- Rendering of a code region kind inside a block key. Modelled from the
spec: the `Display` of the external `FunctionBlockKey` is not among the given
sources; §4.6 only requires a deterministic textual label. -/
def CodeType.fmt : CodeType → String
  | .deploy => "deploy"
  | .runtime => "runtime"

/-- Rendering of a block key (`{code_type}_{tag}`). Modelled from the spec
(§4.6 textual block label); deterministic in the key value. -/
def FunctionBlockKey.fmt (k : FunctionBlockKey) : String :=
  k.code_type.fmt ++ "_" ++ toString k.tag

/-- The opcode mnemonic used when rendering an element. -/
def InstructionName.fmt : InstructionName → String
  | .Tag => "Tag"
  | .RETURN => "RETURN"
  | .REVERT => "REVERT"
  | .STOP => "STOP"
  | .INVALID => "INVALID"
  | .JUMP => "JUMP"
  | .JUMPI => "JUMPI"
  | .PUSH => "PUSH"
  | .ADD => "ADD"
  | .SUB => "SUB"
  | .MUL => "MUL"
  | .POP => "POP"
  | .DUP1 => "DUP1"
  | .SWAP1 => "SWAP1"
  | .MLOAD => "MLOAD"
  | .MSTORE => "MSTORE"
  | .SLOAD => "SLOAD"
  | .SSTORE => "SSTORE"

/-- Rendering of one element ("one line per contained element"). Modelled
from the spec: the element `Display` is not among the given sources; it is a
deterministic function of the element's instruction. -/
def Element.fmt (e : Element) : String :=
  e.instruction.name.fmt ++
    (match e.instruction.value with
     | some v => " " ++ v
     | none => "")

/-- One predecessor entry as rendered by the `format!("{}/{}", key, instance)`
closure inside `Display for Block`. -/
def predecessorFmt (p : FunctionBlockKey × Nat) : String :=
  p.1.fmt ++ "/" ++ toString p.2

/-- `<Block as Display>::fmt`: the header line
`block_{key}/{instance.unwrap_or_default()}: ` followed by
`(predecessors: ...)` when the predecessor set is non-empty — iterated in the
set's in-memory order and joined with `", "` — and then one indented line per
element. -/
def Block.fmt (b : Block) : String :=
  "block_" ++ b.key.fmt ++ "/" ++ toString (b.«instance».getD 0) ++ ": " ++
    (if b.predecessors.isEmpty then ""
     else
       "(predecessors: " ++
         String.intercalate ", " (b.predecessors.map predecessorFmt) ++ ")") ++
    "\n" ++
    String.join (b.elements.map (fun e => "    " ++ e.fmt ++ "\n"))

/-! Concrete sample data used by the scenario theorems, the counterexamples
and the witnesses. -/

/-- A sample compiler version. -/
def sampleVersion : SolcVersion := ⟨0, 8, 17⟩

/-- The scenario input stream `[Tag("1"), PUSH("5"), PUSH("3"), ADD, Tag("2"), RETURN]`. -/
def sampleStream : List Instruction :=
  [⟨.Tag, some "1"⟩, ⟨.PUSH, some "5"⟩, ⟨.PUSH, some "3"⟩, ⟨.ADD, none⟩,
   ⟨.Tag, some "2"⟩, ⟨.RETURN, none⟩]

/-- A two-instruction stream whose tag marker occurs after the first
instruction. -/
def pushThenTagStream : List Instruction :=
  [⟨.PUSH, some "5"⟩, ⟨.Tag, some "2"⟩]

/-- A sample emission context state transition for `set_code_type`: records
the selected region and counts nothing else. -/
def sampleSetCodeType : CodeType → Nat → Nat :=
  fun _ s => s

/-- A sample fallible per-element emission: fails on `REVERT` elements and
advances a counter otherwise. -/
def sampleEmit : Element → Nat → Except String Nat :=
  fun e s =>
    if e.instruction.name = InstructionName.REVERT then Except.error "unsupported opcode"
    else Except.ok (s + 1)

/-- A sample block with elements `[PUSH 1, REVERT, ADD]` for the emission
abort scenario. -/
def sampleEmissionBlock : Block :=
  { solc_version := sampleVersion
    key := FunctionBlockKey.new CodeType.runtime 7
    «instance» := none
    elements :=
      [Element.new sampleVersion ⟨.PUSH, some "1"⟩,
       Element.new sampleVersion ⟨.REVERT, none⟩,
       Element.new sampleVersion ⟨.ADD, none⟩]
    predecessors := []
    initial_stack := ElementStack.new
    stack := ElementStack.new
    extra_hashes := [] }

/-- Two distinct predecessor pairs. -/
def samplePredA : FunctionBlockKey × Nat := (FunctionBlockKey.new CodeType.runtime 1, 0)

/-- The second sample predecessor pair. -/
def samplePredB : FunctionBlockKey × Nat := (FunctionBlockKey.new CodeType.runtime 2, 0)

/-- A block whose predecessor table holds `samplePredA` before `samplePredB`. -/
def sampleDisplayBlock1 : Block :=
  { solc_version := sampleVersion
    key := FunctionBlockKey.new CodeType.runtime 3
    «instance» := some 0
    elements := [Element.new sampleVersion ⟨.STOP, none⟩]
    predecessors := [samplePredA, samplePredB]
    initial_stack := ElementStack.new
    stack := ElementStack.new
    extra_hashes := [] }

/-- The same logical block state as `sampleDisplayBlock1`, with the same
predecessor set held in the opposite in-memory order. -/
def sampleDisplayBlock2 : Block :=
  { sampleDisplayBlock1 with predecessors := [samplePredB, samplePredA] }

/-- The freshly initialized block record that `try_from_instructions` builds:
no instance, no predecessors, empty stacks, no extra hashes; only the key tag
and the looped elements vary. -/
def freshBlock (v : SolcVersion) (ct : CodeType) (tag : Nat) (elements : List Element) : Block :=
  { solc_version := v
    key := FunctionBlockKey.new ct tag
    «instance» := none
    elements := elements
    predecessors := []
    initial_stack := ElementStack.new
    stack := ElementStack.new
    extra_hashes := [] }

/-- The state of `sampleDisplayBlock1` with a different compiler version,
different stacks and an extra hash: fields the rendering does not read. -/
def sampleDisplayBlock3 : Block :=
  { sampleDisplayBlock1 with
    solc_version := ⟨0, 4, 10⟩
    initial_stack := [StackElement.unknown]
    stack := [StackElement.constant "5"]
    extra_hashes := [⟨[1, 2, 3]⟩] }

/-- The first block the code builds from `sampleStream`: key tag 1, elements
`[PUSH 5, PUSH 3, ADD, Tag 2]` — the tag marker is appended before the block
is sealed, although it is not consumed. -/
def sampleBlock1 : Block :=
  freshBlock sampleVersion CodeType.runtime 1
    [Element.new sampleVersion ⟨.PUSH, some "5"⟩,
     Element.new sampleVersion ⟨.PUSH, some "3"⟩,
     Element.new sampleVersion ⟨.ADD, none⟩,
     Element.new sampleVersion ⟨.Tag, some "2"⟩]

/-- The second block the code builds from `sampleStream`: key tag 2 with the
single RETURN element. -/
def sampleBlock2 : Block :=
  freshBlock sampleVersion CodeType.runtime 2
    [Element.new sampleVersion ⟨.RETURN, none⟩]

/-- Characterization of one run of the construction loop on the instructions
after the optional leading tag: the consumed count is bounded by the input
length; no consumed instruction is a tag marker; and either every appended
element is a consumed instruction — with terminators impossible before the
final consumed position, and the loop ending at the input's end or right
after a consumed terminator — or the loop stopped at a tag marker sitting at
the first unconsumed position, appended as one extra trailing element, with
no terminator among the consumed instructions. -/
def LoopChar (v : SolcVersion) (rest : List Instruction) (es : List Element) (n : Nat) : Prop :=
  n ≤ rest.length ∧
  (∀ i instr, rest[i]? = some instr → i < n → instr.name ≠ InstructionName.Tag) ∧
  ((es = (rest.take n).map (Element.new v) ∧
      (∀ i instr, rest[i]? = some instr → i + 1 < n → instr.name.isTerminator = false) ∧
      (n = rest.length ∨
        (0 < n ∧ ∃ instr, rest[n - 1]? = some instr ∧ instr.name.isTerminator = true))) ∨
    (∃ instr, rest[n]? = some instr ∧ instr.name = InstructionName.Tag ∧
      es = (rest.take n).map (Element.new v) ++ [Element.new v instr] ∧
      (∀ i instr2, rest[i]? = some instr2 → i < n → instr2.name.isTerminator = false)))

end EtherealIR

namespace EtherealIR

theorem buildElements_cons (v : SolcVersion) (instr : Instruction) (rest : List Instruction) :
    buildElements v (instr :: rest) =
      if instr.name.isTerminator then ([Element.new v instr], 1)
      else if instr.name = InstructionName.Tag then ([Element.new v instr], 0)
      else
        ((Element.new v instr) :: (buildElements v rest).1,
         (buildElements v rest).2 + 1) := by
  cases h : instr.name <;>
    simp [buildElements, InstructionName.isTerminator, h]

theorem buildElements_char (v : SolcVersion) :
    ∀ rest : List Instruction,
      LoopChar v rest (buildElements v rest).1 (buildElements v rest).2 := by
  intro rest
  induction rest with
  | nil =>
    refine ⟨Nat.le_refl 0, ?_, Or.inl ⟨rfl, ?_, Or.inl rfl⟩⟩ <;>
      (intro i instr hget _; simp at hget)
  | cons instr rest ih =>
    rw [buildElements_cons]
    by_cases hterm : instr.name.isTerminator = true
    · simp only [hterm, if_true]
      refine ⟨Nat.succ_le_succ (Nat.zero_le _), ?_, Or.inl ⟨by simp, ?_, Or.inr ⟨Nat.zero_lt_one, instr, by simp, hterm⟩⟩⟩
      · intro i instr2 hget hi hTag
        have hi0 : i = 0 := Nat.lt_one_iff.mp hi
        subst hi0
        simp at hget
        subst hget
        rw [hTag] at hterm
        simp [InstructionName.isTerminator] at hterm
      · intro i instr2 _ hi
        omega
    · by_cases htag : instr.name = InstructionName.Tag
      · rw [htag, if_neg (by decide), if_pos (by decide)]
        refine ⟨Nat.zero_le _, ?_, Or.inr ⟨instr, by simp, htag, by simp, ?_⟩⟩ <;>
          (intro i instr2 _ hi; omega)
      · simp only [hterm, htag, if_false, Bool.false_eq_true]
        obtain ⟨hlen, hnotag, houtcome⟩ := ih
        have htermf : instr.name.isTerminator = false := by
          revert hterm
          cases instr.name <;> simp [InstructionName.isTerminator]
        refine ⟨Nat.succ_le_succ hlen, ?_, ?_⟩
        · intro i instr2 hget hi
          cases i with
          | zero =>
            simp at hget
            subst hget
            exact htag
          | succ j =>
            simp at hget
            exact hnotag j instr2 hget (Nat.lt_of_succ_lt_succ hi)
        · cases houtcome with
          | inl hout =>
            obtain ⟨he, hnoterm, hend⟩ := hout
            refine Or.inl ⟨by simp [List.take_succ_cons, he], ?_, ?_⟩
            · intro i instr2 hget hi
              cases i with
              | zero =>
                simp at hget
                subst hget
                exact htermf
              | succ j =>
                simp at hget
                exact hnoterm j instr2 hget (by omega)
            · cases hend with
              | inl hfull => exact Or.inl (by simp [hfull])
              | inr hstop =>
                obtain ⟨hpos, instr2, hget, ht⟩ := hstop
                obtain ⟨m, hm⟩ := Nat.exists_eq_succ_of_ne_zero (Nat.pos_iff_ne_zero.mp hpos)
                refine Or.inr ⟨Nat.succ_pos _, instr2, ?_, ht⟩
                rw [hm] at hget ⊢
                simpa using hget
          | inr hout =>
            obtain ⟨instr2, hget, htag2, he, hnoterm⟩ := hout
            refine Or.inr ⟨instr2, by simpa using hget, htag2, by simp [List.take_succ_cons, he], ?_⟩
            intro i instr3 hget3 hi
            cases i with
            | zero =>
              simp at hget3
              subst hget3
              exact htermf
            | succ j =>
              simp at hget3
              exact hnoterm j instr3 hget3 (Nat.lt_of_succ_lt_succ hi)

theorem try_from_cons_tag (v : SolcVersion) (ct : CodeType) (first : Instruction)
    (rest : List Instruction) (operand : String) (tag : Nat)
    (h1 : first.name = InstructionName.Tag) (h2 : first.value = some operand)
    (h3 : parseBigUint operand = some tag) :
    Block.try_from_instructions v ct (first :: rest) =
      some (freshBlock v ct tag (buildElements v rest).1, 1 + (buildElements v rest).2) := by
  cases first with
  | mk name value =>
    simp only at h1 h2
    subst h1
    subst h2
    simp [Block.try_from_instructions, h3, freshBlock]

theorem try_from_cons_tag_bad (v : SolcVersion) (ct : CodeType) (first : Instruction)
    (rest : List Instruction)
    (h1 : first.name = InstructionName.Tag)
    (h2 : first.value = none ∨ ∃ s, first.value = some s ∧ parseBigUint s = none) :
    Block.try_from_instructions v ct (first :: rest) = none := by
  cases first with
  | mk name value =>
    simp only at h1 h2
    subst h1
    cases h2 with
    | inl hnone =>
      subst hnone
      simp [Block.try_from_instructions]
    | inr hbad =>
      obtain ⟨s, hs, hparse⟩ := hbad
      subst hs
      simp [Block.try_from_instructions, hparse]

theorem try_from_cons_nontag (v : SolcVersion) (ct : CodeType) (first : Instruction)
    (rest : List Instruction) (h1 : first.name ≠ InstructionName.Tag) :
    Block.try_from_instructions v ct (first :: rest) =
      some (freshBlock v ct 0 (buildElements v (first :: rest)).1,
        (buildElements v (first :: rest)).2) := by
  cases first with
  | mk name value =>
    simp only at h1
    cases name
    case Tag => exact absurd rfl h1
    all_goals simp [Block.try_from_instructions, freshBlock]

theorem try_from_shape (v : SolcVersion) (ct : CodeType) (slice : List Instruction)
    (b : Block) (n : Nat)
    (h : Block.try_from_instructions v ct slice = some (b, n)) :
    (∃ first rest operand tag, slice = first :: rest ∧
        first.name = InstructionName.Tag ∧ first.value = some operand ∧
        parseBigUint operand = some tag ∧
        b = freshBlock v ct tag (buildElements v rest).1 ∧
        n = 1 + (buildElements v rest).2) ∨
    (∃ first rest, slice = first :: rest ∧ first.name ≠ InstructionName.Tag ∧
        b = freshBlock v ct 0 (buildElements v (first :: rest)).1 ∧
        n = (buildElements v (first :: rest)).2) := by
  cases slice with
  | nil => simp [Block.try_from_instructions] at h
  | cons first rest =>
    by_cases h1 : first.name = InstructionName.Tag
    · cases hv : first.value with
      | none =>
        rw [try_from_cons_tag_bad v ct first rest h1 (Or.inl hv)] at h
        exact absurd h (by simp)
      | some operand =>
        cases hp : parseBigUint operand with
        | none =>
          rw [try_from_cons_tag_bad v ct first rest h1 (Or.inr ⟨operand, hv, hp⟩)] at h
          exact absurd h (by simp)
        | some tag =>
          rw [try_from_cons_tag v ct first rest operand tag h1 hv hp] at h
          simp only [Option.some.injEq, Prod.mk.injEq] at h
          exact Or.inl ⟨first, rest, operand, tag, rfl, h1, hv, hp, h.1.symm, h.2.symm⟩
    · rw [try_from_cons_nontag v ct first rest h1] at h
      simp only [Option.some.injEq, Prod.mk.injEq] at h
      exact Or.inr ⟨first, rest, rfl, h1, h.1.symm, h.2.symm⟩

/-- C10: every block returned by `try_from_instructions` starts in the same
fresh state regardless of input: `instance` is unset, the predecessor set is
empty, `initial_stack` and `stack` are both empty, `extra_hashes` is empty,
and the key's code-region kind equals the kind passed to the constructor. -/
theorem fresh_block_state (v : SolcVersion) (ct : CodeType) (slice : List Instruction)
    (b : Block) (n : Nat)
    (h : Block.try_from_instructions v ct slice = some (b, n)) :
    b.«instance» = none ∧ b.predecessors = [] ∧ b.initial_stack = ElementStack.new ∧
      b.stack = ElementStack.new ∧ b.extra_hashes = [] ∧ b.key.code_type = ct := by
  rcases try_from_shape v ct slice b n h with
    ⟨_, _, _, _, _, _, _, _, hb, _⟩ | ⟨_, _, _, _, hb, _⟩ <;>
    (subst hb; simp [freshBlock, FunctionBlockKey.new])

/-- Witness for C10 at the scenario stream. -/
theorem fresh_block_state_witness :
    Block.try_from_instructions sampleVersion CodeType.runtime sampleStream =
        some (sampleBlock1, 4) ∧
      (sampleBlock1.«instance» = none ∧ sampleBlock1.predecessors = [] ∧
        sampleBlock1.initial_stack = ElementStack.new ∧
        sampleBlock1.stack = ElementStack.new ∧ sampleBlock1.extra_hashes = [] ∧
        sampleBlock1.key.code_type = CodeType.runtime) :=
  ⟨by decide,
   fresh_block_state sampleVersion CodeType.runtime sampleStream sampleBlock1 4 (by decide)⟩

theorem try_from_progress (v : SolcVersion) (ct : CodeType)
    (slice : List Instruction) (b : Block) (n : Nat)
    (h : Block.try_from_instructions v ct slice = some (b, n)) :
    1 ≤ n ∧ n ≤ slice.length := by
  rcases try_from_shape v ct slice b n h with
    ⟨first, rest, operand, tag, hs, h1, hv, hp, hb, hn⟩ |
    ⟨first, rest, hs, h1, hb, hn⟩
  · subst hs
    have hlen := (buildElements_char v rest).1
    constructor
    · omega
    · simp only [List.length_cons]
      omega
  · subst hs
    obtain ⟨hlen, _, houtcome⟩ := buildElements_char v (first :: rest)
    refine ⟨?_, by omega⟩
    by_contra hlt
    have hn0 : n = 0 := by omega
    subst hn
    cases houtcome with
    | inl hout =>
      rcases hout.2.2 with hfull | hpos
      · rw [hn0] at hfull
        simp at hfull
      · omega
    | inr hout =>
      obtain ⟨instr, hget, htag, _, _⟩ := hout
      rw [hn0] at hget
      simp at hget
      subst hget
      exact h1 htag

/-- C9: on every non-empty slice on which it returns, `try_from_instructions`
returns a consumed-instruction count of at least 1 and at most the slice's
length, so the caller's iterative partitioning always makes progress and
terminates. -/
theorem consumed_count_progress (v : SolcVersion) (ct : CodeType)
    (slice : List Instruction) (b : Block) (n : Nat) (_hne : slice ≠ [])
    (h : Block.try_from_instructions v ct slice = some (b, n)) :
    1 ≤ n ∧ n ≤ slice.length :=
  try_from_progress v ct slice b n h

/-- Witness for C9 at the scenario stream. -/
theorem consumed_count_progress_witness :
    (sampleStream ≠ [] ∧
      Block.try_from_instructions sampleVersion CodeType.runtime sampleStream =
        some (sampleBlock1, 4)) ∧
    (1 ≤ 4 ∧ 4 ≤ sampleStream.length) :=
  ⟨⟨by decide, by decide⟩,
   consumed_count_progress sampleVersion CodeType.runtime sampleStream sampleBlock1 4
     (by decide) (by decide)⟩

/-- C4: `try_from_instructions` on an empty slice, or on a slice whose leading
tag marker carries no operand or an operand that is not a valid non-negative
integer, fails (the code panics on these inputs; the panic is embedded as
`none`) and never succeeds. -/
theorem malformed_input_rejected (v : SolcVersion) (ct : CodeType)
    (slice : List Instruction)
    (h : slice = [] ∨ ∃ first rest, slice = first :: rest ∧
        first.name = InstructionName.Tag ∧
        (first.value = none ∨ ∃ s, first.value = some s ∧ parseBigUint s = none)) :
    Block.try_from_instructions v ct slice = none := by
  cases h with
  | inl hnil =>
    subst hnil
    simp [Block.try_from_instructions]
  | inr hbad =>
    obtain ⟨first, rest, hs, h1, h2⟩ := hbad
    subst hs
    exact try_from_cons_tag_bad v ct first rest h1 h2

/-- Witness for C4: the empty slice, a tag with a non-numeric operand, and a
tag with a missing operand are all rejected. -/
theorem malformed_input_rejected_witness :
    Block.try_from_instructions sampleVersion CodeType.deploy [] = none ∧
    Block.try_from_instructions sampleVersion CodeType.deploy
        [⟨InstructionName.Tag, some "xyz"⟩] = none ∧
    Block.try_from_instructions sampleVersion CodeType.deploy
        [⟨InstructionName.Tag, none⟩] = none :=
  ⟨malformed_input_rejected _ _ _ (Or.inl rfl),
   malformed_input_rejected _ _ _
     (Or.inr ⟨_, _, rfl, rfl, Or.inr ⟨"xyz", rfl, by decide⟩⟩),
   malformed_input_rejected _ _ _ (Or.inr ⟨_, _, rfl, rfl, Or.inl rfl⟩)⟩

/-- C6: `insert_predecessor` is idempotent: inserting the same (key, instance)
pair twice yields the same predecessor set as inserting it once, and the
second call leaves the set's size unchanged. -/
theorem insert_predecessor_idempotent (b : Block) (key : FunctionBlockKey) (inst : Nat) :
    (b.insert_predecessor key inst).insert_predecessor key inst =
        b.insert_predecessor key inst ∧
      ((b.insert_predecessor key inst).insert_predecessor key inst).predecessors.length =
        (b.insert_predecessor key inst).predecessors.length := by
  have hself : ∀ (l : List (FunctionBlockKey × Nat)) (p : FunctionBlockKey × Nat),
      p ∈ insertPair l p := by
    intro l p
    unfold insertPair
    by_cases hm : p ∈ l
    · simp [hm]
    · simp [hm]
  have hnoop : ∀ (l : List (FunctionBlockKey × Nat)) (p : FunctionBlockKey × Nat),
      p ∈ l → insertPair l p = l := by
    intro l p hm
    simp [insertPair, hm]
  have hsame : (b.insert_predecessor key inst).insert_predecessor key inst =
      b.insert_predecessor key inst := by
    unfold Block.insert_predecessor
    rw [hnoop _ _ (hself _ _)]
  exact ⟨hsame, by rw [hsame]⟩

theorem loop_tag_last (v : SolcVersion) (rem : List Instruction) (es : List Element)
    (n : Nat) (hchar : LoopChar v rem es n) (i : Nat) (hi : i < es.length)
    (htag : es[i].instruction.name = InstructionName.Tag) :
    i + 1 = es.length ∧ rem[n]? = some es[i].instruction := by
  obtain ⟨hlen, hnotag, houtcome⟩ := hchar
  cases houtcome with
  | inl hout =>
    exfalso
    obtain ⟨he, _, _⟩ := hout
    subst he
    have hi' : i < n := by
      simp only [List.length_map, List.length_take] at hi
      omega
    have hri : i < rem.length := lt_of_lt_of_le hi' hlen
    have hval : ((rem.take n).map (Element.new v))[i] = Element.new v rem[i] := by
      simp [List.getElem_take]
    rw [hval] at htag
    exact hnotag i rem[i] (List.getElem?_eq_getElem hri) hi' htag
  | inr hout =>
    obtain ⟨instr, hget, htagi, he, _⟩ := hout
    subst he
    have hn : n < rem.length := by
      rcases List.getElem?_eq_some.mp hget with ⟨hlt, _⟩
      exact hlt
    have hlenes : ((rem.take n).map (Element.new v)).length = n := by
      simp
      omega
    by_cases hi' : i < n
    · exfalso
      have hri : i < rem.length := by omega
      have hval : ((rem.take n).map (Element.new v) ++ [Element.new v instr])[i] =
          Element.new v rem[i] := by
        rw [List.getElem_append_left (by omega)]
        simp [List.getElem_take]
      rw [hval] at htag
      exact hnotag i rem[i] (List.getElem?_eq_getElem hri) hi' htag
    · have hlen2 : i < n + 1 := by
        simp only [List.length_append, List.length_map, List.length_take,
          List.length_singleton] at hi
        omega
      have hieq : i = n := by omega
      subst hieq
      have hval : ((rem.take i).map (Element.new v) ++ [Element.new v instr])[i] =
          Element.new v instr := by
        have := List.getElem_concat_length ((rem.take i).map (Element.new v))
          (Element.new v instr) i hlenes.symm
        exact this _
      refine ⟨?_, ?_⟩
      · simp only [List.length_append, List.length_map, List.length_take,
          List.length_singleton]
        omega
      · rw [hval]
        exact hget

theorem loop_term_last (v : SolcVersion) (rem : List Instruction) (es : List Element)
    (n : Nat) (hchar : LoopChar v rem es n) (i : Nat) (hi : i < es.length)
    (hterm : es[i].instruction.name.isTerminator = true) :
    i + 1 = es.length ∧ n = es.length ∧ rem[n - 1]? = some es[i].instruction := by
  obtain ⟨hlen, hnotag, houtcome⟩ := hchar
  cases houtcome with
  | inl hout =>
    obtain ⟨he, hnoterm, _⟩ := hout
    subst he
    have hi' : i < n := by
      simp only [List.length_map, List.length_take] at hi
      omega
    have hri : i < rem.length := lt_of_lt_of_le hi' hlen
    have hval : ((rem.take n).map (Element.new v))[i] = Element.new v rem[i] := by
      simp [List.getElem_take]
    rw [hval] at hterm
    have hterm2 : rem[i].name.isTerminator = true := hterm
    have hlast : i + 1 = n := by
      by_contra hne
      have : i + 1 < n := by omega
      rw [hnoterm i rem[i] (List.getElem?_eq_getElem hri) this] at hterm2
      exact Bool.false_ne_true hterm2
    refine ⟨?_, ?_, ?_⟩
    · simp only [List.length_map, List.length_take]
      omega
    · simp only [List.length_map, List.length_take]
      omega
    · have : n - 1 = i := by omega
      rw [this, hval]
      exact List.getElem?_eq_getElem hri
  | inr hout =>
    exfalso
    obtain ⟨instr, hget, htagi, he, hnoterm⟩ := hout
    subst he
    have hn : n < rem.length := by
      rcases List.getElem?_eq_some.mp hget with ⟨hlt, _⟩
      exact hlt
    have hlenes : ((rem.take n).map (Element.new v)).length = n := by
      simp
      omega
    by_cases hi' : i < n
    · have hri : i < rem.length := by omega
      have hval : ((rem.take n).map (Element.new v) ++ [Element.new v instr])[i] =
          Element.new v rem[i] := by
        rw [List.getElem_append_left (by omega)]
        simp [List.getElem_take]
      rw [hval] at hterm
      have hterm2 : rem[i].name.isTerminator = true := hterm
      rw [hnoterm i rem[i] (List.getElem?_eq_getElem hri) hi'] at hterm2
      exact Bool.false_ne_true hterm2
    · have hlen2 : i < n + 1 := by
        simp only [List.length_append, List.length_map, List.length_take,
          List.length_singleton] at hi
        omega
      have hieq : i = n := by omega
      subst hieq
      have hval : ((rem.take i).map (Element.new v) ++ [Element.new v instr])[i] =
          Element.new v instr := by
        have := List.getElem_concat_length ((rem.take i).map (Element.new v))
          (Element.new v instr) i hlenes.symm
        exact this _
      rw [hval] at hterm
      have hterm2 : instr.name.isTerminator = true := hterm
      rw [htagi] at hterm2
      simp [InstructionName.isTerminator] at hterm2

/-- C1 counterexample: on `[PUSH "5", Tag "2"]` the code ends the block at the
tag marker without counting it (consumed count 1), but it DOES append the tag
marker as the block's final element — the element opcode list is
`[PUSH, Tag]`, not `[PUSH]` as the claim asserts. -/
theorem tag_marker_appended_counterexample :
    (Block.try_from_instructions sampleVersion CodeType.runtime pushThenTagStream).map
        (fun p => (p.1.elements.map (fun e => e.instruction.name), p.2)) =
      some ([InstructionName.PUSH, InstructionName.Tag], 1) ∧
    (Block.try_from_instructions sampleVersion CodeType.runtime pushThenTagStream).map
        (fun p => (p.1.elements.map (fun e => e.instruction.name), p.2)) ≠
      some ([InstructionName.PUSH], 1) := by
  constructor
  · rfl
  · decide

/-- C1 (amended): whenever the construction loop reaches a tag marker after
the block's first instruction, the block ends at that marker; the marker IS
appended as the final element of the block's elements sequence, but it is not
counted in the consumed-instruction count — it is the instruction at the
first unconsumed index of the slice, so it is available as the next block's
opening tag. -/
theorem tag_marker_ends_block_uncounted (v : SolcVersion) (ct : CodeType)
    (slice : List Instruction) (b : Block) (n : Nat)
    (h : Block.try_from_instructions v ct slice = some (b, n))
    (i : Nat) (hi : i < b.elements.length)
    (htag : b.elements[i].instruction.name = InstructionName.Tag) :
    i + 1 = b.elements.length ∧ slice[n]? = some b.elements[i].instruction := by
  rcases try_from_shape v ct slice b n h with
    ⟨first, rest, operand, tag, hs, h1, hv, hp, hb, hn⟩ |
    ⟨first, rest, hs, h1, hb, hn⟩
  · subst hs
    subst hb
    subst hn
    simp only [freshBlock] at hi htag ⊢
    obtain ⟨hlast, hpos⟩ :=
      loop_tag_last v rest (buildElements v rest).1 (buildElements v rest).2
        (buildElements_char v rest) i hi htag
    refine ⟨hlast, ?_⟩
    rw [Nat.add_comm]
    rw [List.getElem?_cons_succ]
    exact hpos
  · subst hs
    subst hb
    subst hn
    simp only [freshBlock] at hi htag ⊢
    exact loop_tag_last v (first :: rest) (buildElements v (first :: rest)).1
      (buildElements v (first :: rest)).2 (buildElements_char v (first :: rest)) i hi htag

/-- Witness for C1 (amended) at `[PUSH "5", Tag "2"]`: the tag element is the
block's last element and sits at slice index 1, the consumed count. -/
theorem tag_marker_ends_block_uncounted_witness :
    1 + 1 = 2 ∧ pushThenTagStream[1]? =
      some (Element.new sampleVersion ⟨InstructionName.Tag, some "2"⟩).instruction :=
  tag_marker_ends_block_uncounted sampleVersion CodeType.runtime pushThenTagStream
    (freshBlock sampleVersion CodeType.runtime 0
      [Element.new sampleVersion ⟨InstructionName.PUSH, some "5"⟩,
       Element.new sampleVersion ⟨InstructionName.Tag, some "2"⟩])
    1 (by rfl) 1 (by decide) (by decide)

/-- C5: whenever `try_from_instructions` appends an element whose opcode is
RETURN, REVERT, STOP, INVALID or JUMP, it stops immediately after that
element: the terminator is the block's last element, every element (the
terminator included) is counted in the consumed count, and the terminator is
the last consumed instruction of the slice, so no later instruction is
appended to this block. -/
theorem terminator_seals_block (v : SolcVersion) (ct : CodeType)
    (slice : List Instruction) (b : Block) (n : Nat)
    (h : Block.try_from_instructions v ct slice = some (b, n))
    (i : Nat) (hi : i < b.elements.length)
    (hterm : b.elements[i].instruction.name.isTerminator = true) :
    i + 1 = b.elements.length ∧ b.elements.length ≤ n ∧ 0 < n ∧
      slice[n - 1]? = some b.elements[i].instruction := by
  rcases try_from_shape v ct slice b n h with
    ⟨first, rest, operand, tag, hs, h1, hv, hp, hb, hn⟩ |
    ⟨first, rest, hs, h1, hb, hn⟩
  · subst hs
    subst hb
    subst hn
    simp only [freshBlock] at hi hterm ⊢
    obtain ⟨hlast, hneq, hpos⟩ :=
      loop_term_last v rest (buildElements v rest).1 (buildElements v rest).2
        (buildElements_char v rest) i hi hterm
    have hn'pos : 0 < (buildElements v rest).2 := by omega
    obtain ⟨m, hm⟩ := Nat.exists_eq_succ_of_ne_zero (Nat.pos_iff_ne_zero.mp hn'pos)
    refine ⟨hlast, by omega, by omega, ?_⟩
    have hidx : 1 + (buildElements v rest).2 - 1 = m + 1 := by omega
    rw [hidx, List.getElem?_cons_succ]
    have hidx2 : m = (buildElements v rest).2 - 1 := by omega
    rw [hidx2]
    exact hpos
  · subst hs
    subst hb
    subst hn
    simp only [freshBlock] at hi hterm ⊢
    obtain ⟨hlast, hneq, hpos⟩ :=
      loop_term_last v (first :: rest) (buildElements v (first :: rest)).1
        (buildElements v (first :: rest)).2 (buildElements_char v (first :: rest)) i hi hterm
    exact ⟨hlast, by omega, by omega, hpos⟩

/-- Witness for C5 at the scenario stream's second block `[Tag "2", RETURN]`:
the RETURN element is last, counted, and the last consumed instruction. -/
theorem terminator_seals_block_witness :
    0 + 1 = 1 ∧ 1 ≤ 2 ∧ 0 < 2 ∧
      [(⟨InstructionName.Tag, some "2"⟩ : Instruction), ⟨InstructionName.RETURN, none⟩][2 - 1]? =
        some (Element.new sampleVersion ⟨InstructionName.RETURN, none⟩).instruction :=
  terminator_seals_block sampleVersion CodeType.runtime
    [⟨InstructionName.Tag, some "2"⟩, ⟨InstructionName.RETURN, none⟩]
    sampleBlock2 2 (by rfl) 0 (by decide) (by decide)

/-- C2 counterexample: on the scenario stream
`[Tag "1", PUSH "5", PUSH "3", ADD, Tag "2", RETURN]` the iterated
construction does NOT yield a first block with elements exactly
`[PUSH 5, PUSH 3, ADD]`: the first block additionally carries the `Tag "2"`
marker as its final element. -/
theorem scenario_blocks_counterexample :
    (buildAll sampleVersion CodeType.runtime sampleStream).map
        (fun bns => bns.map (fun p => p.1.elements.map (fun e => e.instruction))) ≠
      some [[⟨InstructionName.PUSH, some "5"⟩, ⟨InstructionName.PUSH, some "3"⟩,
             ⟨InstructionName.ADD, none⟩],
            [⟨InstructionName.RETURN, none⟩]] := by
  decide

/-- C2 (amended): the scenario stream yields exactly two blocks: the first
with key tag 1, elements `[PUSH 5, PUSH 3, ADD, Tag 2]` (the trailing tag
marker is appended but not consumed) and consumed count 4, the second with
key tag 2, the single RETURN element and consumed count 2; neither block has
any predecessor entries. -/
theorem scenario_blocks_amended :
    buildAll sampleVersion CodeType.runtime sampleStream =
      some [(sampleBlock1, 4), (sampleBlock2, 2)] := by
  rfl

theorem buildAllFuel_cons (v : SolcVersion) (ct : CodeType) (fuel : Nat)
    (first : Instruction) (rest : List Instruction) :
    buildAllFuel v ct (fuel + 1) (first :: rest) =
      match Block.try_from_instructions v ct (first :: rest) with
      | none => none
      | some (b, n) =>
        match buildAllFuel v ct fuel ((first :: rest).drop n) with
        | none => none
        | some tail => some ((b, n) :: tail) :=
  rfl

theorem buildAllFuel_partition (v : SolcVersion) (ct : CodeType) :
    ∀ (fuel : Nat) (slice : List Instruction) (bns : List (Block × Nat)),
      buildAllFuel v ct fuel slice = some bns →
      (splitByCounts slice (bns.map Prod.snd)).flatten = slice ∧
        (bns.map Prod.snd).sum = slice.length ∧
        ∀ c ∈ bns.map Prod.snd, 1 ≤ c := by
  intro fuel
  induction fuel with
  | zero =>
    intro slice bns h
    cases slice with
    | nil =>
      simp only [buildAllFuel, Option.some.injEq] at h
      subst h
      simp [splitByCounts]
    | cons first rest => simp [buildAllFuel] at h
  | succ fuel ih =>
    intro slice bns h
    cases slice with
    | nil =>
      simp only [buildAllFuel, Option.some.injEq] at h
      subst h
      simp [splitByCounts]
    | cons first rest =>
      rw [buildAllFuel_cons] at h
      cases htf : Block.try_from_instructions v ct (first :: rest) with
      | none =>
        rw [htf] at h
        exact absurd h (by simp)
      | some bn =>
        obtain ⟨b, nc⟩ := bn
        rw [htf] at h
        have h2 : (match buildAllFuel v ct fuel ((first :: rest).drop nc) with
            | none => none
            | some tail => some ((b, nc) :: tail)) = some bns := h
        cases hrec : buildAllFuel v ct fuel ((first :: rest).drop nc) with
        | none =>
          rw [hrec] at h2
          exact absurd h2 (by simp)
        | some tail =>
          rw [hrec] at h2
          have hbns : (b, nc) :: tail = bns := by
            have h3 : some ((b, nc) :: tail) = some bns := h2
            exact Option.some.inj h3
          subst hbns
          obtain ⟨hjoin, hsum, hpos⟩ := ih ((first :: rest).drop nc) tail hrec
          obtain ⟨hge, hle⟩ := try_from_progress v ct (first :: rest) b nc htf
          refine ⟨?_, ?_, ?_⟩
          · simp only [List.map_cons, splitByCounts, List.flatten]
            rw [hjoin]
            exact List.take_append_drop nc (first :: rest)
          · simp only [List.map_cons, List.sum_cons]
            rw [hsum]
            simp only [List.length_drop]
            omega
          · intro c hc
            simp only [List.map_cons, List.mem_cons] at hc
            cases hc with
            | inl hceq =>
              subst hceq
              exact hge
            | inr hmem => exact hpos c hmem

/-- C3: for every finite instruction stream on which the iterated
construction succeeds, the returned consumed counts partition the stream
exactly: splitting the stream by those counts and rejoining reproduces the
stream (no instruction skipped, none assigned twice), the counts sum to the
stream's length, and every block consumes at least one instruction. -/
theorem partition_complete (v : SolcVersion) (ct : CodeType)
    (slice : List Instruction) (bns : List (Block × Nat))
    (h : buildAll v ct slice = some bns) :
    (splitByCounts slice (bns.map Prod.snd)).flatten = slice ∧
      (bns.map Prod.snd).sum = slice.length ∧
      ∀ c ∈ bns.map Prod.snd, 1 ≤ c :=
  buildAllFuel_partition v ct slice.length slice bns h

/-- Witness for C3 at the scenario stream: counts [4, 2] rebuild the
six-instruction stream and sum to its length. -/
theorem partition_complete_witness :
    (splitByCounts sampleStream
        ([(sampleBlock1, 4), (sampleBlock2, 2)].map Prod.snd)).flatten = sampleStream ∧
      ([(sampleBlock1, 4), (sampleBlock2, 2)].map Prod.snd).sum = sampleStream.length :=
  ⟨(partition_complete sampleVersion CodeType.runtime sampleStream
      [(sampleBlock1, 4), (sampleBlock2, 2)] (by rfl)).1,
   (partition_complete sampleVersion CodeType.runtime sampleStream
      [(sampleBlock1, 4), (sampleBlock2, 2)] (by rfl)).2.1⟩

theorem emitElements_append_ok {σ ε : Type} (emit : Element → σ → Except ε σ)
    (l1 l2 : List Element) (s s1 : σ)
    (h : emitElements emit l1 s = Except.ok s1) :
    emitElements emit (l1 ++ l2) s = emitElements emit l2 s1 := by
  induction l1 generalizing s with
  | nil =>
    simp only [emitElements, Except.ok.injEq] at h
    subst h
    simp [emitElements]
  | cons a l1 ih =>
    rw [List.cons_append]
    simp only [emitElements] at h ⊢
    cases hea : emit a s with
    | error err2 =>
      rw [hea] at h
      exact absurd (show (Except.error err2 : Except ε σ) = Except.ok s1 from h) (by simp)
    | ok s2 =>
      rw [hea] at h
      exact ih s2 h

/-- C7: block emission first selects the block's code region on the context,
then emits every element's action in element order; if emitting an element
fails after the elements before it emitted successfully, emission stops
there — the element's error is returned to the caller unchanged and no later
element influences the result. -/
theorem into_llvm_error_propagation {σ ε : Type} (set_code_type : CodeType → σ → σ)
    (emit : Element → σ → Except ε σ) (b : Block) (s : σ)
    (pre post : List Element) (e : Element) (s1 : σ) (err : ε)
    (helems : b.elements = pre ++ e :: post)
    (hpre : emitElements emit pre (set_code_type b.key.code_type s) = Except.ok s1)
    (hfail : emit e s1 = Except.error err) :
    Block.into_llvm set_code_type emit b s = Except.error err := by
  unfold Block.into_llvm
  rw [helems]
  rw [emitElements_append_ok emit pre (e :: post) _ s1 hpre]
  simp only [emitElements]
  rw [hfail]

/-- Witness for C7: a block `[PUSH 1, REVERT, ADD]` emitted against a sample
context whose emission rejects REVERT aborts with that error. -/
theorem into_llvm_error_propagation_witness :
    Block.into_llvm sampleSetCodeType sampleEmit sampleEmissionBlock 0 =
      Except.error "unsupported opcode" :=
  into_llvm_error_propagation sampleSetCodeType sampleEmit sampleEmissionBlock 0
    [Element.new sampleVersion ⟨InstructionName.PUSH, some "1"⟩]
    [Element.new sampleVersion ⟨InstructionName.ADD, none⟩]
    (Element.new sampleVersion ⟨InstructionName.REVERT, none⟩)
    1 "unsupported opcode" rfl rfl rfl

/-- C8 counterexample: two blocks with identical key, instance, elements and
predecessor sets (the same two pairs, held in opposite in-memory table
orders) render to different byte strings — the code iterates the predecessor
`HashSet` directly, with no sorting or stable ordering of its contents. -/
theorem display_unsorted_counterexample :
    sampleDisplayBlock1.key = sampleDisplayBlock2.key ∧
      sampleDisplayBlock1.«instance» = sampleDisplayBlock2.«instance» ∧
      sampleDisplayBlock1.elements = sampleDisplayBlock2.elements ∧
      sampleDisplayBlock1.predecessors.Perm sampleDisplayBlock2.predecessors ∧
      Block.fmt sampleDisplayBlock1 ≠ Block.fmt sampleDisplayBlock2 := by
  refine ⟨rfl, rfl, rfl, by decide, by decide⟩

/-- C8 (amended): the rendering is a deterministic function of the block's
key, instance, elements and the predecessor table's in-memory iteration
order — no other field influences the output — but the predecessor set is
rendered in table order, not sorted, so equal predecessor sets in different
table orders may render differently. -/
theorem display_deterministic_on_state (b1 b2 : Block)
    (hk : b1.key = b2.key) (hi : b1.«instance» = b2.«instance»)
    (he : b1.elements = b2.elements) (hp : b1.predecessors = b2.predecessors) :
    Block.fmt b1 = Block.fmt b2 := by
  unfold Block.fmt
  rw [hk, hi, he, hp]

/-- Witness for C8 (amended): a block differing from `sampleDisplayBlock1`
only in compiler version, stacks and extra hashes renders identically. -/
theorem display_deterministic_on_state_witness :
    Block.fmt sampleDisplayBlock1 = Block.fmt sampleDisplayBlock3 :=
  display_deterministic_on_state sampleDisplayBlock1 sampleDisplayBlock3 rfl rfl rfl rfl

end EtherealIR
